import Mathlib

/-!
Verification of the InventoryTracker program (`src/app.py`).

The program is a single-file SQLite inventory manager.  We give a shallow
embedding: the database is a pair of row lists (tables `inventory` and
`orders`), text is modelled as `List Char` (`Str`), SQL `INTEGER` as `Int`,
and each operation of the source becomes a pure Lean function from the
database state (plus the raw user inputs collected by the prompts) to the
new state and an outcome mirroring the printed message.

String primitives used by the source (`str.strip`, `str.lower`,
`str.startswith`, SQLite `lower()`, text `ORDER BY`, `LIKE`) are embedded
as executable functions on `List Char` so that every concrete scenario can
be evaluated by `decide`.
-/

/-- Text values (Python / SQLite `TEXT`), as a list of characters. -/
abbrev Str := List Char

/-- ASCII lower-casing of one character.  This is exactly what SQLite's
`lower()` does, and what Python's `str.lower` does on ASCII input. -/
def lowerc (c : Char) : Char :=
  if 65 ≤ c.toNat ∧ c.toNat ≤ 90 then Char.ofNat (c.toNat + 32) else c

/-- Lower-casing of a string, character by character. -/
def lowerStr (s : Str) : Str := s.map lowerc

/-- Python `str.strip()`: remove leading and trailing whitespace. -/
def trimChars (s : Str) : Str :=
  ((s.dropWhile Char.isWhitespace).reverse.dropWhile Char.isWhitespace).reverse

/-- Lexicographic (byte-wise) text comparison, as used by SQLite for
`ORDER BY` on `TEXT` columns (`memcmp` on UTF-8 bytes, equivalently
code-point order). -/
def strLeb : Str → Str → Bool
  | [], _ => true
  | _ :: _, [] => false
  | a :: as, b :: bs => a.toNat < b.toNat || (a.toNat == b.toNat && strLeb as bs)

/-- Insertion step of insertion sort with a boolean comparator.  Any sort
is a faithful model of SQL `ORDER BY` (which fixes only the ordering, not
the placement of ties). -/
def insertLe {α : Type} (le : α → α → Bool) (x : α) : List α → List α
  | [] => [x]
  | y :: ys => if le x y then x :: y :: ys else y :: insertLe le x ys

/-- Insertion sort with a boolean comparator. -/
def sortLe {α : Type} (le : α → α → Bool) : List α → List α
  | [] => []
  | x :: xs => insertLe le x (sortLe le xs)

/-- The decimal digit character for `d` (`0`–`9`). -/
def digitChar10 (d : Nat) : Char := Char.ofNat (48 + d)

/-- Decimal rendering of a natural number, as Python `str` produces it. -/
def natChars (n : Nat) : Str :=
  if n = 0 then ['0'] else (Nat.digits 10 n).reverse.map digitChar10

/-- Decimal rendering of an integer, as Python `str` produces it
(`csv.writer` stringifies the SQLite `INTEGER` values this way). -/
def intChars (i : Int) : Str :=
  if i < 0 then '-' :: natChars i.natAbs else natChars i.toNat

/-- Is `c` a decimal digit character? -/
def isDigitCh (c : Char) : Bool := 48 ≤ c.toNat && c.toNat ≤ 57

/-- Numeric value of a digit character. -/
def digitVal (c : Char) : Nat := c.toNat - 48

/-- Parse a decimal natural number (all characters must be digits). -/
def parseNatChars (cs : Str) : Option Nat :=
  if cs ≠ [] ∧ cs.all isDigitCh then
    some (Nat.ofDigits 10 ((cs.map digitVal).reverse))
  else none

/-- Parse a decimal integer with an optional leading minus sign. -/
def parseIntChars : Str → Option Int
  | [] => none
  | c :: rest =>
    if c = '-' then (parseNatChars rest).map (fun n => -(n : Int))
    else (parseNatChars (c :: rest)).map (fun n => (n : Int))

/-- Does a CSV field need quoting?  Python `csv.writer` (default dialect,
minimal quoting) quotes a field iff it contains the delimiter `,`, the
quote character `"`, or a line-terminator character. -/
def needsQuote (s : Str) : Bool := s.any (fun c => c = ',' || c = '"' || c = '\r' || c = '\n')

/-- Double every quote character (CSV escaping inside a quoted field). -/
def escapeQuotes : Str → Str
  | [] => []
  | c :: cs => if c = '"' then '"' :: '"' :: escapeQuotes cs else c :: escapeQuotes cs

/-- Serialize one CSV field with minimal quoting, as `csv.writer` does. -/
def serializeField (s : Str) : Str :=
  if needsQuote s then '"' :: (escapeQuotes s ++ ['"']) else s

/-- Serialize one CSV line: the fields, comma separated. -/
def serializeLine : List Str → Str
  | [] => []
  | [f] => serializeField f
  | f :: g :: fs => serializeField f ++ ',' :: serializeLine (g :: fs)

/-- Read a quoted CSV field (after the opening quote): undouble quotes and
stop at the closing quote, returning the field and the rest of the line. -/
def parseQuoted : Str → Str × Str
  | [] => ([], [])
  | c :: rest =>
    if c = '"' then
      match rest with
      | [] => ([], [])
      | c2 :: rest2 =>
        if c2 = '"' then ('"' :: (parseQuoted rest2).1, (parseQuoted rest2).2)
        else ([], c2 :: rest2)
    else (c :: (parseQuoted rest).1, (parseQuoted rest).2)

/-- Read an unquoted CSV field: everything up to the next comma. -/
def takeUnquoted : Str → Str × Str
  | [] => ([], [])
  | c :: cs =>
    if c = ',' then ([], c :: cs)
    else (c :: (takeUnquoted cs).1, (takeUnquoted cs).2)

/-- Read one CSV field (quoted or not) off the front of a line. -/
def firstField : Str → Str × Str
  | [] => ([], [])
  | c :: cs => if c = '"' then parseQuoted cs else takeUnquoted (c :: cs)

/-- Split a CSV line into fields (fuelled worker; the fuel only needs to
exceed the number of fields). -/
def parseLineGo : Nat → Str → List Str
  | 0, _ => []
  | fuel + 1, cs =>
    match firstField cs with
    | (f, c :: rest) => if c = ',' then f :: parseLineGo fuel rest else [f]
    | (f, []) => [f]

/-- Parse one CSV line back into its list of fields. -/
def parseLine (cs : Str) : List Str := parseLineGo (cs.length + 1) cs

/-- Does `f` hold of some suffix of the string (the string itself and the
empty suffix included)? -/
def anySuffix (f : Str → Bool) : Str → Bool
  | [] => f []
  | c :: ts => f (c :: ts) || anySuffix f ts

/-- SQLite `LIKE` pattern matching: `%` matches any character sequence,
`_` matches exactly one character, and any other pattern character
matches itself.  The source lower-cases both operands before the
comparison, so plain character equality is the faithful model here. -/
def likeM : Str → Str → Bool
  | [], t => t.isEmpty
  | '%' :: ps, t => anySuffix (fun t2 => likeM ps t2) t
  | '_' :: _, [] => false
  | '_' :: ps, _ :: ts => likeM ps ts
  | _ :: _, [] => false
  | p :: ps, c :: ts => p == c && likeM ps ts

/-- Does the string start with the given needle?  (Spec-side notion used to
state the substring property; also `str.startswith`.) -/
def begins : Str → Str → Bool
  | [], _ => true
  | _ :: _, [] => false
  | p :: ps, c :: ts => p == c && begins ps ts

/-- Spec-side substring containment: some suffix of `hay` starts with
`needle`. -/
def containsSub (needle hay : Str) : Bool := anySuffix (begins needle) hay

/-- A row of the `inventory` table (`src/app.py`, `create_tables`):
`id INTEGER PRIMARY KEY`, `item TEXT UNIQUE NOT NULL`,
`category TEXT NOT NULL DEFAULT 'General'`, `qty INTEGER CHECK (qty >= 0)`,
`reorder_level INTEGER DEFAULT 5 CHECK (reorder_level >= 0)`. -/
structure InventoryRow where
  id : Int
  item : Str
  category : Str
  qty : Int
  reorder_level : Int
deriving DecidableEq

/-- A row of the `orders` table: `id INTEGER PRIMARY KEY`,
`item_id INTEGER NOT NULL`, `qty INTEGER CHECK (qty > 0)`, `note TEXT`,
`ordered_at TEXT NOT NULL`, `FOREIGN KEY(item_id) REFERENCES inventory(id)`. -/
structure OrderRow where
  id : Int
  item_id : Int
  qty : Int
  note : Option Str
  ordered_at : Str
deriving DecidableEq

/-- The database file: the two tables, rows listed in rowid order. -/
structure Db where
  inventory : List InventoryRow
  orders : List OrderRow
deriving DecidableEq

/-- The rowid SQLite assigns to the next `INSERT` into a table whose rows
carry the given ids: one more than the largest existing rowid (1 for an
empty table). -/
def next_rowid (ids : List Int) : Int := ids.foldr max 0 + 1

def next_item_id (db : Db) : Int := next_rowid (db.inventory.map (·.id))

def next_order_id (db : Db) : Int := next_rowid (db.orders.map (·.id))

/-- Lookup `SELECT ... FROM inventory WHERE item = ?` (at most one row can match
thanks to the UNIQUE constraint; we model the first). -/
def lookup_item (db : Db) (name : Str) : Option InventoryRow :=
  db.inventory.find? (fun r => decide (r.item = name))

inductive UpsertResult where
  | emptyName
  | saved
deriving DecidableEq

/-- The category defaulting of `add_or_update_item` (line 63):
`category = input(...).strip() or "General"`. -/
def category_of (rawCategory : Str) : Str :=
  if trimChars rawCategory = [] then "General".data else trimChars rawCategory

/-- The row rewrite performed by `ON CONFLICT(item) DO UPDATE SET
category=excluded.category, qty=excluded.qty,
reorder_level=excluded.reorder_level` on the conflicting row. -/
def upsert_update (name category : Str) (qty reorder_level : Int)
    (r : InventoryRow) : InventoryRow :=
  if r.item = name then
    { r with category := category, qty := qty, reorder_level := reorder_level }
  else r

/-- Operation `add_or_update_item` (src/app.py lines 58–79): strip the name, reject
if empty, default the category to `General`, then
`INSERT ... ON CONFLICT(item) DO UPDATE` — update the row with that name
in place if one exists, otherwise insert a fresh row with a fresh id. -/
def add_or_update_item (db : Db) (rawItem rawCategory : Str)
    (qty reorder_level : Int) : Db × UpsertResult :=
  let item := trimChars rawItem
  if item = [] then (db, .emptyName)
  else if db.inventory.any (fun r => decide (r.item = item)) then
    ({ db with inventory :=
        db.inventory.map (upsert_update item (category_of rawCategory) qty reorder_level) },
     .saved)
  else
    ({ db with inventory :=
        db.inventory ++ [⟨next_item_id db, item, category_of rawCategory, qty, reorder_level⟩] },
     .saved)

/-- The tuple shape returned by
`SELECT item, category, qty, reorder_level FROM inventory`. -/
structure InvView where
  item : Str
  category : Str
  qty : Int
  reorder_level : Int
deriving DecidableEq

def inv_view_le (a b : InvView) : Bool := strLeb a.item b.item

def inv_view_of (r : InventoryRow) : InvView := ⟨r.item, r.category, r.qty, r.reorder_level⟩

/-- Operation `view_inventory` (lines 82–95):
`SELECT item, category, qty, reorder_level FROM inventory ORDER BY item`. -/
def view_inventory (db : Db) : List InvView :=
  sortLe inv_view_le (db.inventory.map inv_view_of)

/-- Operation `search_inventory` (lines 98–119): strip and lower-case the term,
reject it if empty before any query, else
`SELECT ... WHERE lower(item) LIKE '%term%' OR lower(category) LIKE '%term%'
ORDER BY item`. -/
def search_inventory (db : Db) (rawTerm : Str) : Option (List InvView) :=
  let term := lowerStr (trimChars rawTerm)
  if term = [] then none
  else some (sortLe inv_view_le ((db.inventory.filter (fun r =>
      likeM ('%' :: (term ++ ['%'])) (lowerStr r.item) ||
      likeM ('%' :: (term ++ ['%'])) (lowerStr r.category))).map inv_view_of))

/-- The direction logic of `adjust_quantity` (lines 125–126):
`direction = input(...).strip().lower() or "a"` and
`multiplier = 1 if direction.startswith("a") else -1`. -/
def direction_multiplier (rawDirection : Str) : Int :=
  let d := lowerStr (trimChars rawDirection)
  let direction := if d = [] then "a".data else d
  if "a".data.isPrefixOf direction then 1 else -1

inductive AdjustResult where
  | notFound
  | belowZero
  | adjusted (newQty : Int)
deriving DecidableEq

/-- Operation `adjust_quantity` (lines 122–140): look the item up by name; report
`Item not found.` if absent; compute `new_qty = qty + multiplier * delta`;
report `Cannot reduce below zero.` without writing if `new_qty < 0`;
otherwise `UPDATE inventory SET qty = ? WHERE id = ?`. -/
def adjust_quantity (db : Db) (rawItem : Str) (delta : Int) (rawDirection : Str) :
    Db × AdjustResult :=
  let item := trimChars rawItem
  let multiplier := direction_multiplier rawDirection
  match lookup_item db item with
  | none => (db, .notFound)
  | some row =>
    let new_qty := row.qty + multiplier * delta
    if new_qty < 0 then (db, .belowZero)
    else
      ({ db with inventory := db.inventory.map (fun r =>
          if r.id = row.id then { r with qty := new_qty } else r) },
       .adjusted new_qty)

/-- The note handling of `place_order` (line 146):
`note = input(...).strip() or None`. -/
def note_of (rawNote : Str) : Option Str :=
  if trimChars rawNote = [] then none else some (trimChars rawNote)

inductive OrderResult where
  | notFound
  | notEnoughStock
  | recorded
deriving DecidableEq

/-- Operation `place_order` (lines 143–165): look the item up by name; report
`Item not found.` if absent; report `Not enough stock for this order.` if
the stored quantity is below the requested one; otherwise, in one
transaction, `UPDATE inventory SET qty = qty - ? WHERE id = ?` and
`INSERT INTO orders (item_id, qty, note, ordered_at)` stamped with the
current UTC time (`now`, collected here as an explicit argument). -/
def place_order (db : Db) (rawItem : Str) (qty : Int) (rawNote : Str) (now : Str) :
    Db × OrderResult :=
  let item := trimChars rawItem
  match lookup_item db item with
  | none => (db, .notFound)
  | some row =>
    if row.qty < qty then (db, .notEnoughStock)
    else
      ({ inventory := db.inventory.map (fun r =>
            if r.id = row.id then { r with qty := r.qty - qty } else r),
         orders := db.orders ++ [⟨next_order_id db, row.id, qty, note_of rawNote, now⟩] },
       .recorded)

/-- The row shape returned by `view_orders`:
`SELECT o.id, i.item, o.qty, o.note, o.ordered_at`. -/
structure OrderView where
  id : Int
  item : Str
  qty : Int
  note : Option Str
  ordered_at : Str
deriving DecidableEq

def order_view_desc (a b : OrderView) : Bool := strLeb b.ordered_at a.ordered_at

/-- Operation `view_orders` (lines 168–183):
`SELECT o.id, i.item, o.qty, o.note, o.ordered_at FROM orders o
JOIN inventory i ON o.item_id = i.id ORDER BY o.ordered_at DESC`.
The inner join keeps exactly the orders whose `item_id` still matches an
inventory row. -/
def view_orders (db : Db) : List OrderView :=
  sortLe order_view_desc (db.orders.filterMap (fun o =>
    (db.inventory.find? (fun i => decide (i.id = o.item_id))).map
      (fun i => ⟨o.id, i.item, o.qty, o.note, o.ordered_at⟩)))

/-- The row shape returned by `view_low_stock`:
`SELECT item, qty, reorder_level`. -/
structure LowStockView where
  item : Str
  qty : Int
  reorder_level : Int
deriving DecidableEq

def low_stock_le (a b : LowStockView) : Bool := decide (a.qty ≤ b.qty)

/-- Operation `view_low_stock` (lines 186–201): `SELECT item, qty, reorder_level
FROM inventory WHERE qty <= reorder_level ORDER BY qty`. -/
def view_low_stock (db : Db) : List LowStockView :=
  sortLe low_stock_le ((db.inventory.filter (fun r =>
    decide (r.qty ≤ r.reorder_level))).map (fun r => ⟨r.item, r.qty, r.reorder_level⟩))

/-- The header row `csv.writer` writes first in `export_inventory`. -/
def export_header : List Str := ["item".data, "category".data, "qty".data, "reorder_level".data]

/-- Operation `export_inventory` (lines 204–219): select the same rows as
`view_inventory` (name order); if there are none, report
`Inventory empty, nothing to export.` and write nothing (`none`);
otherwise write the header line followed by one CSV line per row. -/
def export_inventory (db : Db) : Option (List Str) :=
  let rows := view_inventory db
  if rows = [] then none
  else some (serializeLine export_header ::
    rows.map (fun r => serializeLine [r.item, r.category, intChars r.qty, intChars r.reorder_level]))

/-- One line of the per-category block of `inventory_summary`:
`SELECT category, COUNT(*) items, COALESCE(SUM(qty), 0) qty`. -/
structure CategoryLine where
  category : Str
  items : Nat
  qty : Int
deriving DecidableEq

def category_desc (a b : CategoryLine) : Bool := decide (b.qty ≤ a.qty)

/-- Operation `inventory_summary` (lines 222–243): the totals row
`SELECT COUNT(*), COALESCE(SUM(qty), 0) FROM inventory` plus the
per-category rows `SELECT category, COUNT(*) items, COALESCE(SUM(qty), 0) qty
FROM inventory GROUP BY category ORDER BY qty DESC`. -/
def category_line (db : Db) (c : Str) : CategoryLine :=
  ⟨c, (db.inventory.filter (fun r => decide (r.category = c))).length,
    ((db.inventory.filter (fun r => decide (r.category = c))).map (·.qty)).sum⟩

def inventory_summary (db : Db) : (Nat × Int) × List CategoryLine :=
  ((db.inventory.length, (db.inventory.map (·.qty)).sum),
   sortLe category_desc ((db.inventory.map (·.category)).dedup.map (category_line db)))

/-- Operation `delete_item` (lines 246–254): `DELETE FROM inventory WHERE item = ?`;
the returned flag is whether any row was deleted (`rowcount`).  The
`orders` table is not touched. -/
def delete_item (db : Db) (rawItem : Str) : Db × Bool :=
  let item := trimChars rawItem
  let remaining := db.inventory.filter (fun r => decide (¬ r.item = item))
  ({ db with inventory := remaining }, decide (remaining.length < db.inventory.length))

/-- Decode one exported CSV data line back into the view tuple it came
from (spec-side reader for the round-trip property). -/
def decode_row (fs : List Str) : Option InvView :=
  match fs with
  | [a, b, c, d] =>
    match parseIntChars c, parseIntChars d with
    | some q, some l => some ⟨a, b, q, l⟩
    | _, _ => none
  | _ => none

/-- The worked scenario of the spec: start from an empty database, save
`Widget` (10 units), order 3 with note `rush`, then delete `Widget`. -/
def demo_db0 : Db := ⟨[], []⟩

def demo_db1 : Db :=
  (add_or_update_item demo_db0 "Widget".data "Hardware".data 10 3).1

def demo_db2 : Db :=
  (place_order demo_db1 "Widget".data 3 "rush".data "2024-01-01T00:00:00".data).1

def demo_db3 : Db := (delete_item demo_db2 "Widget".data).1

/-- The single-item database used to exhibit the `LIKE` wildcard
behaviour of `search_inventory`. -/
def search_demo_db : Db := ⟨[⟨1, "abc".data, "General".data, 5, 5⟩], []⟩

theorem strLeb_total (a b : Str) : strLeb a b = true ∨ strLeb b a = true := by
  induction a generalizing b with
  | nil => exact .inl rfl
  | cons x xs ih =>
    cases b with
    | nil => exact .inr rfl
    | cons y ys =>
      rcases Nat.lt_trichotomy x.toNat y.toNat with h | h | h
      · exact .inl (by simp [strLeb, h])
      · rcases ih ys with h2 | h2
        · exact .inl (by simp [strLeb, h, h2])
        · exact .inr (by simp [strLeb, h, h2])
      · exact .inr (by simp [strLeb, h])

theorem strLeb_trans (a b c : Str) (hab : strLeb a b = true) (hbc : strLeb b c = true) :
    strLeb a c = true := by
  induction a generalizing b c with
  | nil => rfl
  | cons x xs ih =>
    cases b with
    | nil => simp [strLeb] at hab
    | cons y ys =>
      cases c with
      | nil => simp [strLeb] at hbc
      | cons z zs =>
        simp only [strLeb, Bool.or_eq_true, Bool.and_eq_true, beq_iff_eq,
          decide_eq_true_eq] at hab hbc ⊢
        rcases hab with h1 | ⟨h1, h1'⟩ <;> rcases hbc with h2 | ⟨h2, h2'⟩
        · exact .inl (Nat.lt_trans h1 h2)
        · exact .inl (h2 ▸ h1)
        · exact .inl (h1 ▸ h2)
        · exact .inr ⟨h1.trans h2, ih ys zs h1' h2'⟩

theorem insertLe_perm {α : Type} (le : α → α → Bool) (x : α) (l : List α) :
    (insertLe le x l).Perm (x :: l) := by
  induction l with
  | nil => exact List.Perm.refl _
  | cons y ys ih =>
    by_cases h : le x y = true
    · simp [insertLe, h]
    · simp only [insertLe, h]
      exact ((ih.cons y).trans (List.Perm.swap x y ys))

theorem sortLe_perm {α : Type} (le : α → α → Bool) (l : List α) :
    (sortLe le l).Perm l := by
  induction l with
  | nil => exact List.Perm.refl _
  | cons x xs ih => exact (insertLe_perm le x (sortLe le xs)).trans (ih.cons x)

theorem mem_sortLe {α : Type} (le : α → α → Bool) (x : α) (l : List α) :
    x ∈ sortLe le l ↔ x ∈ l :=
  (sortLe_perm le l).mem_iff

theorem mem_insertLe {α : Type} (le : α → α → Bool) (x y : α) (l : List α) :
    y ∈ insertLe le x l ↔ y = x ∨ y ∈ l := by
  rw [(insertLe_perm le x l).mem_iff, List.mem_cons]

theorem insertLe_pairwise {α : Type} (le : α → α → Bool)
    (hTot : ∀ a b, le a b = true ∨ le b a = true)
    (hTr : ∀ a b c, le a b = true → le b c = true → le a c = true)
    (x : α) (l : List α) (hl : l.Pairwise (fun a b => le a b = true)) :
    (insertLe le x l).Pairwise (fun a b => le a b = true) := by
  induction l with
  | nil => simp [insertLe]
  | cons y ys ih =>
    cases hl with
    | cons hy hys =>
    by_cases h : le x y = true
    · simp only [insertLe, h, if_true]
      refine List.Pairwise.cons ?_ (List.Pairwise.cons hy hys)
      intro z hz
      rcases List.mem_cons.mp hz with rfl | hz
      · exact h
      · exact hTr x y z h (hy z hz)
    · simp only [insertLe, h, if_false]
      refine List.Pairwise.cons ?_ (ih hys)
      intro z hz
      rcases (mem_insertLe le x z ys).mp hz with hzx | hz
      · rw [hzx]
        rcases hTot x y with h' | h'
        · exact absurd h' h
        · exact h'
      · exact hy z hz

theorem sortLe_pairwise {α : Type} (le : α → α → Bool)
    (hTot : ∀ a b, le a b = true ∨ le b a = true)
    (hTr : ∀ a b c, le a b = true → le b c = true → le a c = true)
    (l : List α) : (sortLe le l).Pairwise (fun a b => le a b = true) := by
  induction l with
  | nil => simp [sortLe]
  | cons x xs ih => exact insertLe_pairwise le hTot hTr x (sortLe le xs) ih

theorem sortLe_perm_of_perm {α : Type} (le : α → α → Bool) {l₁ l₂ : List α}
    (h : l₁.Perm l₂) : (sortLe le l₁).Perm (sortLe le l₂) :=
  ((sortLe_perm le l₁).trans h).trans (sortLe_perm le l₂).symm

theorem digitVal_digitChar10 {d : Nat} (h : d < 10) : digitVal (digitChar10 d) = d := by
  interval_cases d <;> decide

theorem isDigitCh_digitChar10 {d : Nat} (h : d < 10) : isDigitCh (digitChar10 d) = true := by
  interval_cases d <;> decide

theorem natChars_all_digit (n : Nat) : ∀ c ∈ natChars n, isDigitCh c = true := by
  intro c hc
  unfold natChars at hc
  by_cases h : n = 0
  · simp [h] at hc
    subst hc; decide
  · simp only [h, if_false, List.mem_map, List.mem_reverse] at hc
    obtain ⟨d, hd, rfl⟩ := hc
    exact isDigitCh_digitChar10 (Nat.digits_lt_base (by norm_num) hd)

theorem natChars_ne_nil (n : Nat) : natChars n ≠ [] := by
  unfold natChars
  by_cases h : n = 0
  · simp [h]
  · simp only [h, if_false]
    intro habs
    rw [List.map_eq_nil_iff, List.reverse_eq_nil_iff] at habs
    exact h (Nat.digits_eq_nil_iff_eq_zero.mp habs)

theorem parseNatChars_natChars (n : Nat) : parseNatChars (natChars n) = some n := by
  unfold parseNatChars
  rw [if_pos ⟨natChars_ne_nil n, List.all_eq_true.mpr (fun c hc => natChars_all_digit n c hc)⟩]
  congr 1
  unfold natChars
  by_cases h : n = 0
  · simp [h, digitVal, Nat.ofDigits]
  · simp only [h, if_false, List.map_map, List.map_reverse, List.reverse_reverse]
    have heq : ∀ d ∈ Nat.digits 10 n, (digitVal ∘ digitChar10) d = id d := by
      intro d hd
      simp only [Function.comp_apply, id_eq]
      exact digitVal_digitChar10 (Nat.digits_lt_base (by norm_num) hd)
    rw [List.map_congr_left heq, List.map_id, Nat.ofDigits_digits]

theorem parseIntChars_intChars (i : Int) : parseIntChars (intChars i) = some i := by
  by_cases h : i < 0
  · have h1 : intChars i = '-' :: natChars i.natAbs := by
      simp [intChars, h]
    rw [h1]
    simp [parseIntChars, parseNatChars_natChars, abs_of_neg h]
  · have h1 : intChars i = natChars i.toNat := by
      simp [intChars, h]
    cases hne : natChars i.toNat with
    | nil => exact absurd hne (natChars_ne_nil _)
    | cons c rest =>
      have hc : isDigitCh c = true := by
        apply natChars_all_digit i.toNat
        rw [hne]
        exact List.mem_cons_self _ _
      have hcne : ¬ c = '-' := by
        intro habs
        rw [habs] at hc
        exact absurd hc (by decide)
      rw [h1, hne]
      simp only [parseIntChars, if_neg hcne]
      rw [← hne, parseNatChars_natChars]
      simp [Int.toNat_of_nonneg (not_lt.mp h)]

theorem parseQuoted_qq (rest2 : Str) :
    parseQuoted ('"' :: '"' :: rest2) = ('"' :: (parseQuoted rest2).1, (parseQuoted rest2).2) := by
  simp [parseQuoted]

theorem parseQuoted_close (c2 : Char) (rest2 : Str) (h : ¬ c2 = '"') :
    parseQuoted ('"' :: c2 :: rest2) = ([], c2 :: rest2) := by
  simp [parseQuoted, h]

theorem parseQuoted_one : parseQuoted ['"'] = ([], []) := rfl

theorem parseQuoted_other (c : Char) (rest : Str) (h : ¬ c = '"') :
    parseQuoted (c :: rest) = (c :: (parseQuoted rest).1, (parseQuoted rest).2) := by
  rw [parseQuoted.eq_def]
  simp [h]

theorem takeUnquoted_other (c : Char) (cs : Str) (h : ¬ c = ',') :
    takeUnquoted (c :: cs) = (c :: (takeUnquoted cs).1, (takeUnquoted cs).2) := by
  simp [takeUnquoted, h]

theorem escapeQuotes_q (s : Str) :
    escapeQuotes ('"' :: s) = '"' :: '"' :: escapeQuotes s := by
  simp [escapeQuotes]

theorem escapeQuotes_other (c : Char) (s : Str) (h : ¬ c = '"') :
    escapeQuotes (c :: s) = c :: escapeQuotes s := by
  simp [escapeQuotes, h]

theorem parseQuoted_escapeQuotes (s rest : Str) (h : rest.head? ≠ some '"') :
    parseQuoted (escapeQuotes s ++ ('"' :: rest)) = (s, rest) := by
  induction s with
  | nil =>
    rw [show escapeQuotes [] = [] from rfl, List.nil_append]
    cases rest with
    | nil => exact parseQuoted_one
    | cons r rs =>
      have hr : ¬ r = '"' := by
        intro habs
        exact h (by rw [habs]; rfl)
      exact parseQuoted_close r rs hr
  | cons a s' ih =>
    by_cases ha : a = '"'
    · subst ha
      rw [escapeQuotes_q, List.cons_append, List.cons_append, parseQuoted_qq, ih]
    · rw [escapeQuotes_other a s' ha, List.cons_append, parseQuoted_other a _ ha, ih]

theorem takeUnquoted_append (f rest : Str) (hf : ∀ c ∈ f, ¬ c = ',')
    (hrest : rest = [] ∨ rest.head? = some ',') :
    takeUnquoted (f ++ rest) = (f, rest) := by
  induction f with
  | nil =>
    rcases hrest with rfl | hrest
    · rfl
    · cases rest with
      | nil => simp at hrest
      | cons r rs =>
        simp only [List.head?] at hrest
        have hr : r = ',' := by injection hrest
        subst hr
        simp [takeUnquoted]
  | cons c cs ih =>
    have hc : ¬ c = ',' := hf c (List.mem_cons_self _ _)
    rw [List.cons_append, takeUnquoted_other c _ hc,
      ih (fun x hx => hf x (List.mem_cons_of_mem _ hx))]

theorem firstField_serializeField (f rest : Str)
    (hrest : rest = [] ∨ rest.head? = some ',') :
    firstField (serializeField f ++ rest) = (f, rest) := by
  by_cases hq : needsQuote f = true
  · have h1 : serializeField f ++ rest = '"' :: (escapeQuotes f ++ ('"' :: rest)) := by
      rw [serializeField, if_pos hq]
      simp
    rw [h1]
    have h2 : firstField ('"' :: (escapeQuotes f ++ ('"' :: rest))) =
        parseQuoted (escapeQuotes f ++ ('"' :: rest)) := by
      simp [firstField]
    rw [h2]
    apply parseQuoted_escapeQuotes
    rcases hrest with rfl | hrest
    · simp
    · rw [hrest]
      decide
  · have hf : ∀ c ∈ f, ¬ c = ',' ∧ ¬ c = '"' := by
      intro c hc
      have h0 := (List.any_eq_false).mp (Bool.not_eq_true _ ▸ hq) c hc
      simp only [Bool.or_eq_true, decide_eq_true_eq, not_or] at h0
      tauto
    rw [serializeField, if_neg hq]
    cases f with
    | nil =>
      rcases hrest with rfl | hrest
      · rfl
      · cases rest with
        | nil => simp at hrest
        | cons r rs =>
          simp only [List.head?] at hrest
          have hr : r = ',' := by injection hrest
          subst hr
          simp [firstField, takeUnquoted]
    | cons c cs =>
      have hc : ¬ c = '"' := (hf c (List.mem_cons_self _ _)).2
      rw [List.cons_append]
      have h2 : firstField (c :: (cs ++ rest)) = takeUnquoted (c :: (cs ++ rest)) := by
        simp [firstField, hc]
      rw [h2, ← List.cons_append]
      exact takeUnquoted_append (c :: cs) rest (fun x hx => (hf x hx).1) hrest

theorem parseLineGo_serializeLine (fs : List Str) (fuel : Nat)
    (hne : fs ≠ []) (hfuel : fs.length ≤ fuel) :
    parseLineGo fuel (serializeLine fs) = fs := by
  induction fs generalizing fuel with
  | nil => exact absurd rfl hne
  | cons f gs ih =>
    cases fuel with
    | zero => simp at hfuel
    | succ fuel' =>
      cases gs with
      | nil =>
        have h1 : serializeLine [f] = serializeField f ++ [] := by
          simp [serializeLine]
        rw [h1, parseLineGo, firstField_serializeField f [] (Or.inl rfl)]
      | cons g gs' =>
        have h1 : serializeLine (f :: g :: gs') =
            serializeField f ++ (',' :: serializeLine (g :: gs')) := rfl
        have h2 : parseLineGo fuel' (serializeLine (g :: gs')) = g :: gs' :=
          ih fuel' (by simp) (by simp only [List.length_cons] at hfuel ⊢; omega)
        rw [h1, parseLineGo,
          firstField_serializeField f (',' :: serializeLine (g :: gs')) (Or.inr rfl)]
        simp [h2]

theorem length_le_serializeLine (fs : List Str) :
    fs.length ≤ (serializeLine fs).length + 1 := by
  induction fs with
  | nil => simp
  | cons f gs ih =>
    cases gs with
    | nil => simp [serializeLine]
    | cons g gs' =>
      have h1 : serializeLine (f :: g :: gs') =
          serializeField f ++ (',' :: serializeLine (g :: gs')) := rfl
      rw [h1]
      simp only [List.length_append, List.length_cons]
      simp only [List.length_cons] at ih
      omega

theorem parseLine_serializeLine (fs : List Str) (hne : fs ≠ []) :
    parseLine (serializeLine fs) = fs :=
  parseLineGo_serializeLine fs _ hne (length_le_serializeLine fs)

theorem anySuffix_eq_true (f : Str → Bool) (t : Str) :
    anySuffix f t = true ↔ ∃ t1 t2, t = t1 ++ t2 ∧ f t2 = true := by
  induction t with
  | nil =>
    simp only [anySuffix]
    constructor
    · intro h
      exact ⟨[], [], rfl, h⟩
    · rintro ⟨t1, t2, heq, h⟩
      rcases List.append_eq_nil.mp heq.symm with ⟨rfl, rfl⟩
      exact h
  | cons c ts ih =>
    simp only [anySuffix, Bool.or_eq_true, ih]
    constructor
    · rintro (h | ⟨t1, t2, rfl, h⟩)
      · exact ⟨[], c :: ts, rfl, h⟩
      · exact ⟨c :: t1, t2, rfl, h⟩
    · rintro ⟨t1, t2, heq, h⟩
      cases t1 with
      | nil =>
        rw [List.nil_append] at heq
        exact Or.inl (heq ▸ h)
      | cons x t1' =>
        rw [List.cons_append] at heq
        injection heq with h1 h2
        exact Or.inr ⟨t1', t2, h2, h⟩

theorem begins_eq_true (n t : Str) : begins n t = true ↔ ∃ rest, t = n ++ rest := by
  induction n generalizing t with
  | nil => simp [begins]
  | cons p ps ih =>
    cases t with
    | nil =>
      simp only [begins]
      constructor
      · intro h
        exact absurd h (by decide)
      · rintro ⟨rest, h⟩
        simp at h
    | cons c ts =>
      simp only [begins, Bool.and_eq_true, beq_iff_eq, ih]
      constructor
      · rintro ⟨rfl, rest, rfl⟩
        exact ⟨rest, rfl⟩
      · rintro ⟨rest, h⟩
        rw [List.cons_append] at h
        injection h with h1 h2
        exact ⟨h1.symm, rest, h2⟩

theorem containsSub_iff (needle hay : Str) :
    containsSub needle hay = true ↔ ∃ pre post, hay = pre ++ needle ++ post := by
  unfold containsSub
  rw [anySuffix_eq_true]
  constructor
  · rintro ⟨t1, t2, rfl, h⟩
    obtain ⟨rest, rfl⟩ := (begins_eq_true needle t2).mp h
    exact ⟨t1, rest, by rw [List.append_assoc]⟩
  · rintro ⟨pre, post, rfl⟩
    exact ⟨pre, needle ++ post, by rw [List.append_assoc],
      (begins_eq_true needle _).mpr ⟨post, rfl⟩⟩

theorem anySuffix_congr (f g : Str → Bool) (h : ∀ t, f t = g t) (t : Str) :
    anySuffix f t = anySuffix g t := by
  induction t with
  | nil => exact h []
  | cons c ts ih => simp only [anySuffix, h, ih]

theorem anySuffix_of_nil (f : Str → Bool) (h : f [] = true) (t : Str) :
    anySuffix f t = true := by
  induction t with
  | nil => exact h
  | cons c ts ih => simp [anySuffix, ih]

theorem likeM_pct (ps t : Str) :
    likeM ('%' :: ps) t = anySuffix (fun t2 => likeM ps t2) t := by
  cases t <;> rfl

theorem likeM_char_nil (p : Char) (ps : Str) (hp : ¬ p = '%') :
    likeM (p :: ps) [] = false := by
  rw [likeM.eq_def]
  by_cases h2 : p = '_'
  · subst h2
    simp
  · simp [hp, h2]

theorem likeM_char_cons (p : Char) (ps : Str) (c : Char) (ts : Str)
    (hp : ¬ p = '%') (hp2 : ¬ p = '_') :
    likeM (p :: ps) (c :: ts) = (p == c && likeM ps ts) := by
  rw [likeM.eq_def]
  simp [hp, hp2]

theorem likeM_append_pct (ps : Str) (hp : ∀ p ∈ ps, ¬ p = '%' ∧ ¬ p = '_') (t : Str) :
    likeM (ps ++ ['%']) t = begins ps t := by
  induction ps generalizing t with
  | nil =>
    rw [List.nil_append, likeM_pct]
    rw [anySuffix_of_nil _ (by rfl) t]
    rfl
  | cons p ps' ih =>
    obtain ⟨hp1, hp2⟩ := hp p (List.mem_cons_self _ _)
    have hrest : ∀ q ∈ ps', ¬ q = '%' ∧ ¬ q = '_' :=
      fun q hq => hp q (List.mem_cons_of_mem _ hq)
    cases t with
    | nil =>
      rw [List.cons_append, likeM_char_nil p _ hp1]
      rfl
    | cons c ts =>
      rw [List.cons_append, likeM_char_cons p _ c ts hp1 hp2, ih hrest]
      rfl

theorem likeM_pct_pct (term : Str) (hp : ∀ p ∈ term, ¬ p = '%' ∧ ¬ p = '_') (s : Str) :
    likeM ('%' :: (term ++ ['%'])) s = containsSub term s := by
  rw [likeM_pct]
  exact anySuffix_congr _ _ (fun t => likeM_append_pct term hp t) s

theorem find?_map_of_pres {α : Type} (p : α → Bool) (u : α → α)
    (hu : ∀ x, p (u x) = p x) (l : List α) :
    (l.map u).find? p = (l.find? p).map u := by
  induction l with
  | nil => rfl
  | cons a l ih =>
    by_cases h : p a = true
    · rw [List.map_cons, List.find?_cons_of_pos l h,
        List.find?_cons_of_pos (l.map u) (by rw [hu]; exact h)]
      rfl
    · rw [List.map_cons, List.find?_cons_of_neg l h,
        List.find?_cons_of_neg (l.map u) (by rw [hu]; exact h), ih]

theorem filter_key_eq_single {α β : Type} [DecidableEq β] (f : α → β) (l : List α)
    (hnd : (l.map f).Nodup) (x : α) (hx : x ∈ l) :
    l.filter (fun y => decide (f y = f x)) = [x] := by
  induction l with
  | nil => cases hx
  | cons a l ih =>
    rw [List.map_cons, List.nodup_cons] at hnd
    rcases List.mem_cons.mp hx with rfl | hx'
    · rw [List.filter_cons, if_pos (by simp)]
      have hnil : l.filter (fun y => decide (f y = f x)) = [] := by
        rw [List.filter_eq_nil_iff]
        intro y hy
        simp only [decide_eq_true_eq]
        intro habs
        exact hnd.1 (habs ▸ List.mem_map_of_mem f hy)
      rw [hnil]
    · have hne : ¬ f a = f x := by
        intro habs
        exact hnd.1 (habs ▸ List.mem_map_of_mem f hx')
      rw [List.filter_cons, if_neg (by simpa using hne)]
      exact ih hnd.2 hx'

/-- C10: in `adjust_quantity`, the delta is added exactly when the
stripped, lower-cased direction string is empty or starts with the letter
`a`; every other direction string (including unrecognised input such as
`x`) subtracts, and an empty direction input therefore defaults to
addition. -/
theorem direction_multiplier_spec (s : Str) :
    (direction_multiplier s = 1 ∨ direction_multiplier s = -1) ∧
    (direction_multiplier s = 1 ↔
      (lowerStr (trimChars s) = [] ∨ (lowerStr (trimChars s)).head? = some 'a')) := by
  cases hd : lowerStr (trimChars s) with
  | nil =>
    constructor
    · left
      simp [direction_multiplier, hd]
    · constructor
      · intro _
        exact Or.inl rfl
      · intro _
        simp [direction_multiplier, hd]
  | cons c cs =>
    have hne : ¬ (c :: cs) = ([] : Str) := by simp
    by_cases hc : c = 'a'
    · subst hc
      constructor
      · left
        simp [direction_multiplier, hd, hne, List.isPrefixOf]
      · simp [direction_multiplier, hd, hne, List.isPrefixOf]
    · have hp : ("a".data.isPrefixOf (c :: cs)) = false := by
        simp only [List.isPrefixOf, Bool.and_eq_false_iff]
        left
        simp only [beq_eq_false_iff_ne, ne_eq]
        exact fun habs => hc habs.symm
      constructor
      · right
        simp [direction_multiplier, hd, hne, hp]
      · simp [direction_multiplier, hd, hne, hp, hc]

/-- C10 witness: the direction string `x` is unrecognised and yields the
subtracting multiplier. -/
theorem direction_multiplier_spec_witness :
    direction_multiplier "x".data = 1 ∨ direction_multiplier "x".data = -1 :=
  (direction_multiplier_spec "x".data).1

/-- C3: an adjustment never leaves any stored quantity negative (given
the schema invariant that quantities start non-negative), and a rejected
adjustment (item not found, or the result would cross zero) leaves the
database exactly as it was. -/
theorem adjust_quantity_spec (db : Db) (rawItem : Str) (delta : Int) (rawDirection : Str)
    (hq : ∀ r ∈ db.inventory, 0 ≤ r.qty) :
    (∀ r ∈ (adjust_quantity db rawItem delta rawDirection).1.inventory, 0 ≤ r.qty) ∧
    (((adjust_quantity db rawItem delta rawDirection).2 = AdjustResult.notFound ∨
      (adjust_quantity db rawItem delta rawDirection).2 = AdjustResult.belowZero) →
      (adjust_quantity db rawItem delta rawDirection).1 = db) := by
  unfold adjust_quantity
  cases hfind : lookup_item db (trimChars rawItem) with
  | none =>
    simp only [hfind]
    exact ⟨hq, fun _ => by simp⟩
  | some row =>
    by_cases hneg : row.qty + direction_multiplier rawDirection * delta < 0
    · simp only [hfind, hneg, if_pos]
      exact ⟨hq, fun _ => by simp⟩
    · simp only [hfind, hneg, if_false]
      constructor
      · intro r hr
        rw [List.mem_map] at hr
        obtain ⟨r0, hr0, rfl⟩ := hr
        by_cases hid : r0.id = row.id
        · simp only [hid, if_pos]
          omega
        · simp only [hid, if_false]
          exact hq r0 hr0
      · intro habs
        rcases habs with h | h <;> simp at h

/-- C3 witness: subtracting 20 from the 10 units of `Widget` is rejected
and leaves the database unchanged. -/
theorem adjust_quantity_spec_witness :
    (adjust_quantity
      ⟨[⟨1, "Widget".data, "Hardware".data, 10, 3⟩], []⟩
      "Widget".data 20 "s".data).1 =
      ⟨[⟨1, "Widget".data, "Hardware".data, 10, 3⟩], []⟩ :=
  (adjust_quantity_spec ⟨[⟨1, "Widget".data, "Hardware".data, 10, 3⟩], []⟩
    "Widget".data 20 "s".data (by decide)).2 (Or.inr (by decide))

/-- C1: ordering quantity `q` against an item holding `Q` units succeeds
iff `Q ≥ q`; on success the item's stored quantity becomes `Q − q` and
exactly one new order row (with that quantity and the given note) is
appended; on insufficient stock the operation reports it and leaves both
tables untouched. -/
theorem place_order_spec (db : Db) (rawItem : Str) (q : Int) (rawNote now : Str)
    (row : InventoryRow) (hfind : lookup_item db (trimChars rawItem) = some row) :
    (row.qty < q → place_order db rawItem q rawNote now = (db, OrderResult.notEnoughStock)) ∧
    (q ≤ row.qty →
      (place_order db rawItem q rawNote now).2 = OrderResult.recorded ∧
      lookup_item (place_order db rawItem q rawNote now).1 (trimChars rawItem) =
        some { row with qty := row.qty - q } ∧
      (place_order db rawItem q rawNote now).1.orders =
        db.orders ++ [⟨next_order_id db, row.id, q, note_of rawNote, now⟩]) := by
  constructor
  · intro hlt
    unfold place_order
    simp only [hfind]
    rw [if_pos hlt]
  · intro hle
    have hnlt : ¬ row.qty < q := not_lt.mpr hle
    unfold place_order
    simp only [hfind]
    rw [if_neg hnlt]
    refine ⟨rfl, ?_, rfl⟩
    unfold lookup_item
    have hpres : ∀ x : InventoryRow,
        (fun r => decide (r.item = trimChars rawItem))
          ((fun r => if r.id = row.id then { r with qty := r.qty - q } else r) x) =
        (fun r => decide (r.item = trimChars rawItem)) x := by
      intro x
      by_cases hid : x.id = row.id <;> simp [hid]
    rw [find?_map_of_pres _ _ hpres,
      show List.find? (fun r => decide (r.item = trimChars rawItem)) db.inventory = some row
        from hfind]
    simp

/-- C1 witness: ordering 3 of the 10 stored `Widget` units succeeds. -/
theorem place_order_spec_witness :
    (place_order demo_db1 "Widget".data 3 "rush".data "2024-01-01T00:00:00".data).2 =
      OrderResult.recorded :=
  ((place_order_spec demo_db1 "Widget".data 3 "rush".data "2024-01-01T00:00:00".data
    ⟨1, "Widget".data, "Hardware".data, 10, 3⟩ (by decide)).2 (by decide)).1

theorem low_stock_le_total (a b : LowStockView) :
    low_stock_le a b = true ∨ low_stock_le b a = true := by
  simp only [low_stock_le, decide_eq_true_eq]
  exact le_total a.qty b.qty

theorem low_stock_le_trans (a b c : LowStockView)
    (hab : low_stock_le a b = true) (hbc : low_stock_le b c = true) :
    low_stock_le a c = true := by
  simp only [low_stock_le, decide_eq_true_eq] at hab hbc ⊢
  exact le_trans hab hbc

/-- C5: the low-stock report lists exactly the items whose quantity is at
or below their reorder level, in ascending quantity order, and two
databases whose inventories are permutations of each other produce
reports that are permutations of each other (the report is independent of
insertion order). -/
theorem view_low_stock_spec (db db2 : Db) (hperm : db.inventory.Perm db2.inventory) :
    (view_low_stock db).Pairwise (fun a b => a.qty ≤ b.qty) ∧
    (∀ v, v ∈ view_low_stock db ↔
      ∃ r ∈ db.inventory, r.qty ≤ r.reorder_level ∧
        v = ⟨r.item, r.qty, r.reorder_level⟩) ∧
    (view_low_stock db).Perm (view_low_stock db2) := by
  refine ⟨?_, ?_, ?_⟩
  · have h := sortLe_pairwise low_stock_le low_stock_le_total low_stock_le_trans
      ((db.inventory.filter (fun r => decide (r.qty ≤ r.reorder_level))).map
        (fun r => ⟨r.item, r.qty, r.reorder_level⟩))
    exact h.imp (fun hab => by simpa [low_stock_le] using hab)
  · intro v
    unfold view_low_stock
    rw [mem_sortLe, List.mem_map]
    constructor
    · rintro ⟨r, hr, rfl⟩
      rw [List.mem_filter] at hr
      exact ⟨r, hr.1, by simpa using hr.2, rfl⟩
    · rintro ⟨r, hr, hcond, rfl⟩
      exact ⟨r, List.mem_filter.mpr ⟨hr, by simpa using hcond⟩, rfl⟩
  · unfold view_low_stock
    exact sortLe_perm_of_perm _ ((hperm.filter _).map _)

/-- C5 witness: two insertion orders of the same two items give
permutation-equal low-stock reports. -/
theorem view_low_stock_spec_witness :
    (view_low_stock ⟨[⟨1, "a".data, "G".data, 2, 5⟩, ⟨2, "b".data, "G".data, 9, 5⟩], []⟩).Perm
      (view_low_stock ⟨[⟨2, "b".data, "G".data, 9, 5⟩, ⟨1, "a".data, "G".data, 2, 5⟩], []⟩) :=
  (view_low_stock_spec
    ⟨[⟨1, "a".data, "G".data, 2, 5⟩, ⟨2, "b".data, "G".data, 9, 5⟩], []⟩
    ⟨[⟨2, "b".data, "G".data, 9, 5⟩, ⟨1, "a".data, "G".data, 2, 5⟩], []⟩
    (by decide)).2.2

theorem category_desc_total (a b : CategoryLine) :
    category_desc a b = true ∨ category_desc b a = true := by
  simp only [category_desc, decide_eq_true_eq]
  exact le_total b.qty a.qty

theorem category_desc_trans (a b c : CategoryLine)
    (hab : category_desc a b = true) (hbc : category_desc b c = true) :
    category_desc a c = true := by
  simp only [category_desc, decide_eq_true_eq] at hab hbc ⊢
  exact le_trans hbc hab

/-- C8: the summary returns the item count and the total of all
quantities, plus one line per distinct category carrying that category's
item count and quantity total, ordered by quantity total descending. -/
theorem inventory_summary_spec (db : Db) :
    (inventory_summary db).1.1 = db.inventory.length ∧
    (inventory_summary db).1.2 = (db.inventory.map (·.qty)).sum ∧
    ((inventory_summary db).2.map (·.category)).Nodup ∧
    (∀ c, (∃ g ∈ (inventory_summary db).2, g.category = c) ↔
      c ∈ db.inventory.map (·.category)) ∧
    (∀ g ∈ (inventory_summary db).2,
      g.items = (db.inventory.filter (fun r => decide (r.category = g.category))).length ∧
      g.qty = ((db.inventory.filter (fun r => decide (r.category = g.category))).map (·.qty)).sum) ∧
    (inventory_summary db).2.Pairwise (fun a b => b.qty ≤ a.qty) := by
  have hmem : ∀ g : CategoryLine, g ∈ (inventory_summary db).2 ↔
      g ∈ (db.inventory.map (·.category)).dedup.map (category_line db) :=
    fun g => mem_sortLe category_desc g _
  refine ⟨rfl, rfl, ?_, ?_, ?_, ?_⟩
  · have hperm : ((inventory_summary db).2.map (·.category)).Perm
        (((db.inventory.map (·.category)).dedup.map (category_line db)).map (·.category)) :=
      (sortLe_perm _ _).map _
    rw [hperm.nodup_iff, List.map_map]
    have hid : ((db.inventory.map (·.category)).dedup.map
        ((fun g : CategoryLine => g.category) ∘ category_line db)) =
        (db.inventory.map (·.category)).dedup :=
      (List.map_congr_left (fun c _ => rfl)).trans (List.map_id _)
    rw [hid]
    exact List.nodup_dedup _
  · intro c
    constructor
    · rintro ⟨g, hg, rfl⟩
      rw [hmem, List.mem_map] at hg
      obtain ⟨c0, hc0, rfl⟩ := hg
      exact List.mem_dedup.mp hc0
    · intro hc
      exact ⟨category_line db c,
        (hmem _).mpr (List.mem_map_of_mem _ (List.mem_dedup.mpr hc)), rfl⟩
  · intro g hg
    rw [hmem, List.mem_map] at hg
    obtain ⟨c0, _, rfl⟩ := hg
    exact ⟨rfl, rfl⟩
  · have h := sortLe_pairwise category_desc category_desc_total category_desc_trans
      ((db.inventory.map (·.category)).dedup.map (category_line db))
    exact h.imp (fun hab => by simpa [category_desc] using hab)

/-- C8 witness: the per-category lines of a concrete database are sorted
by quantity total descending. -/
theorem inventory_summary_spec_witness :
    (inventory_summary ⟨[⟨1, "a".data, "G".data, 2, 5⟩, ⟨2, "b".data, "H".data, 9, 5⟩], []⟩).2.Pairwise
      (fun a b => b.qty ≤ a.qty) :=
  (inventory_summary_spec
    ⟨[⟨1, "a".data, "G".data, 2, 5⟩, ⟨2, "b".data, "H".data, 9, 5⟩], []⟩).2.2.2.2.2

theorem order_view_desc_total (a b : OrderView) :
    order_view_desc a b = true ∨ order_view_desc b a = true :=
  (strLeb_total b.ordered_at a.ordered_at).elim Or.inl Or.inr

theorem order_view_desc_trans (a b c : OrderView)
    (hab : order_view_desc a b = true) (hbc : order_view_desc b c = true) :
    order_view_desc a c = true :=
  strLeb_trans c.ordered_at b.ordered_at a.ordered_at hbc hab

/-- C9 (amended): the order-history listing returns exactly the order
rows whose referenced item still exists in the inventory, each paired
with that item's name, ordered by `ordered_at` descending; orders whose
item was deleted are dropped by the inner join. -/
theorem view_orders_spec (db : Db) (hids : (db.inventory.map (·.id)).Nodup) :
    (view_orders db).Pairwise (fun a b => strLeb b.ordered_at a.ordered_at = true) ∧
    (∀ v, v ∈ view_orders db ↔
      ∃ o ∈ db.orders, ∃ i ∈ db.inventory, i.id = o.item_id ∧
        v = ⟨o.id, i.item, o.qty, o.note, o.ordered_at⟩) := by
  constructor
  · have h := sortLe_pairwise order_view_desc order_view_desc_total order_view_desc_trans
      (db.orders.filterMap (fun o =>
        (db.inventory.find? (fun i => decide (i.id = o.item_id))).map
          (fun i => ⟨o.id, i.item, o.qty, o.note, o.ordered_at⟩)))
    exact h.imp (fun hab => by simpa [order_view_desc] using hab)
  · intro v
    have hv : v ∈ view_orders db ↔ v ∈ db.orders.filterMap (fun o =>
        (db.inventory.find? (fun i => decide (i.id = o.item_id))).map
          (fun i => ⟨o.id, i.item, o.qty, o.note, o.ordered_at⟩)) :=
      mem_sortLe order_view_desc v _
    rw [hv, List.mem_filterMap]
    constructor
    · rintro ⟨o, ho, hfo⟩
      rw [Option.map_eq_some'] at hfo
      obtain ⟨i, hfind, rfl⟩ := hfo
      exact ⟨o, ho, i, List.mem_of_find?_eq_some hfind,
        by simpa using List.find?_some hfind, rfl⟩
    · rintro ⟨o, ho, i, hi, hid, rfl⟩
      refine ⟨o, ho, ?_⟩
      have hsome : (db.inventory.find? (fun x => decide (x.id = o.item_id))).isSome :=
        List.find?_isSome.mpr ⟨i, hi, by simpa using hid⟩
      obtain ⟨i', hi'⟩ := Option.isSome_iff_exists.mp hsome
      have hii : i' = i := by
        apply List.inj_on_of_nodup_map hids (List.mem_of_find?_eq_some hi') hi
        have h2 := List.find?_some hi'
        simp only [decide_eq_true_eq] at h2
        rw [h2, hid]
      rw [hi', hii]
      rfl

/-- C9 witness: with the demo database (one order on the existing
`Widget`), the listing is sorted by timestamp descending. -/
theorem view_orders_spec_witness :
    (view_orders demo_db2).Pairwise (fun a b => strLeb b.ordered_at a.ordered_at = true) :=
  (view_orders_spec demo_db2 (by decide)).1

/-- C9 counterexample: after deleting `Widget`, the orders table is
non-empty, yet the order-history listing shows nothing — it does not
return all order rows. -/
theorem view_orders_cex :
    demo_db3.orders ≠ [] ∧ view_orders demo_db3 = [] := by decide

/-- C2 (amended): deleting an item leaves the `orders` table untouched
(every order row referencing it survives unchanged) and removes the item
from the inventory listing, but order rows whose item was deleted no
longer appear in the `view_orders` listing because of its inner join. -/
theorem delete_item_spec (db : Db) (rawName : Str)
    (hoids : (db.orders.map (·.id)).Nodup) :
    (delete_item db rawName).1.orders = db.orders ∧
    (∀ t ∈ view_inventory (delete_item db rawName).1, ¬ t.item = trimChars rawName) ∧
    (∀ o ∈ db.orders, o.item_id ∉ ((delete_item db rawName).1.inventory.map (·.id)) →
      ∀ v ∈ view_orders (delete_item db rawName).1, ¬ v.id = o.id) := by
  refine ⟨rfl, ?_, ?_⟩
  · intro t ht
    have ht' : t ∈ ((delete_item db rawName).1.inventory.map inv_view_of) :=
      (mem_sortLe inv_view_le t _).mp ht
    rw [List.mem_map] at ht'
    obtain ⟨r, hr, rfl⟩ := ht'
    have hr2 : r ∈ db.inventory.filter (fun x => decide (¬ x.item = trimChars rawName)) := hr
    rw [List.mem_filter] at hr2
    simpa [inv_view_of] using hr2.2
  · intro o ho hdangling v hv hvid
    have hv' : v ∈ (delete_item db rawName).1.orders.filterMap (fun o2 =>
        ((delete_item db rawName).1.inventory.find? (fun i => decide (i.id = o2.item_id))).map
          (fun i => ⟨o2.id, i.item, o2.qty, o2.note, o2.ordered_at⟩)) :=
      (mem_sortLe order_view_desc v _).mp hv
    rw [List.mem_filterMap] at hv'
    obtain ⟨o', ho', hfo⟩ := hv'
    rw [Option.map_eq_some'] at hfo
    obtain ⟨i, hfind, rfl⟩ := hfo
    have ho'mem : o' ∈ db.orders := ho'
    have hoo : o' = o := List.inj_on_of_nodup_map hoids ho'mem ho hvid
    apply hdangling
    have hiid := List.find?_some hfind
    simp only [decide_eq_true_eq] at hiid
    rw [← hoo, ← hiid]
    exact List.mem_map_of_mem _ (List.mem_of_find?_eq_some hfind)

/-- C2 witness: deleting `Widget` from the demo database leaves the
orders table exactly as it was. -/
theorem delete_item_spec_witness :
    (delete_item demo_db2 "Widget".data).1.orders = demo_db2.orders :=
  (delete_item_spec demo_db2 "Widget".data (by decide)).1

/-- C2 counterexample: after deleting `Widget`, the order row referencing
it survives unchanged in the orders table and `Widget` is gone from the
inventory listing, but the surviving order does not appear in the
`view_orders` listing. -/
theorem delete_item_cex :
    demo_db3.orders = [⟨1, 1, 3, some "rush".data, "2024-01-01T00:00:00".data⟩] ∧
    view_inventory demo_db3 = [] ∧
    view_orders demo_db3 = [] := by decide

theorem add_or_update_item_update_eq (db : Db) (rawI rawC : Str) (q r : Int)
    (hne : ¬ trimChars rawI = [])
    (hany : db.inventory.any (fun rr => decide (rr.item = trimChars rawI)) = true) :
    add_or_update_item db rawI rawC q r =
      ({ db with inventory :=
          db.inventory.map (upsert_update (trimChars rawI) (category_of rawC) q r) },
       UpsertResult.saved) := by
  simp [add_or_update_item, hne, hany]

theorem add_or_update_item_insert_eq (db : Db) (rawI rawC : Str) (q r : Int)
    (hne : ¬ trimChars rawI = [])
    (hany : db.inventory.any (fun rr => decide (rr.item = trimChars rawI)) = false) :
    add_or_update_item db rawI rawC q r =
      ({ db with inventory :=
          db.inventory ++ [⟨next_item_id db, trimChars rawI, category_of rawC, q, r⟩] },
       UpsertResult.saved) := by
  simp [add_or_update_item, hne, hany]

theorem upsert_update_item (name category : Str) (q r : Int) (x : InventoryRow) :
    (upsert_update name category q r x).item = x.item := by
  by_cases hx : x.item = name <;> simp [upsert_update, hx]

theorem add_or_update_item_names_nodup (db : Db) (rawI rawC : Str) (q r : Int)
    (hnames : (db.inventory.map (·.item)).Nodup) :
    ((add_or_update_item db rawI rawC q r).1.inventory.map (·.item)).Nodup := by
  by_cases hne : trimChars rawI = []
  · simpa [add_or_update_item, hne] using hnames
  · by_cases hany : db.inventory.any (fun rr => decide (rr.item = trimChars rawI)) = true
    · rw [add_or_update_item_update_eq db rawI rawC q r hne hany]
      have heq : (db.inventory.map (upsert_update (trimChars rawI) (category_of rawC) q r)).map
          (·.item) = db.inventory.map (·.item) := by
        rw [List.map_map]
        exact List.map_congr_left (fun x _ => upsert_update_item _ _ _ _ x)
      simpa [heq] using hnames
    · have hany' : db.inventory.any (fun rr => decide (rr.item = trimChars rawI)) = false :=
        Bool.not_eq_true _ ▸ hany
      rw [add_or_update_item_insert_eq db rawI rawC q r hne hany']
      simp only [List.map_append]
      rw [List.nodup_append]
      refine ⟨hnames, List.nodup_singleton _, ?_⟩
      intro x hx hx2
      simp only [List.map_cons, List.map_nil, List.mem_singleton] at hx2
      rw [List.mem_map] at hx
      obtain ⟨rr, hrr, rfl⟩ := hx
      have := (List.any_eq_false).mp hany' rr hrr
      simp only [decide_eq_true_eq] at this
      exact this hx2

/-- C4: upserting the same (non-empty) name twice leaves exactly one row
with that name; its category, quantity and reorder level are those of the
second call (after the category defaulting the source applies), and its
id is the id the row had after the first call. -/
theorem add_or_update_item_twice (db : Db) (rawName c1 c2 : Str) (q1 r1 q2 r2 : Int)
    (hn : ¬ trimChars rawName = [])
    (hnames : (db.inventory.map (·.item)).Nodup)
    (row1 : InventoryRow)
    (hrow1 : lookup_item (add_or_update_item db rawName c1 q1 r1).1 (trimChars rawName) =
      some row1) :
    ((add_or_update_item (add_or_update_item db rawName c1 q1 r1).1 rawName c2 q2 r2).1.inventory.filter
        (fun rr => decide (rr.item = trimChars rawName))) =
      [⟨row1.id, trimChars rawName, category_of c2, q2, r2⟩] := by
  have hnames1 : ((add_or_update_item db rawName c1 q1 r1).1.inventory.map (·.item)).Nodup :=
    add_or_update_item_names_nodup db rawName c1 q1 r1 hnames
  have hmem1 : row1 ∈ (add_or_update_item db rawName c1 q1 r1).1.inventory :=
    List.mem_of_find?_eq_some hrow1
  have hitem1 : row1.item = trimChars rawName := by
    simpa using List.find?_some hrow1
  have hany2 : (add_or_update_item db rawName c1 q1 r1).1.inventory.any
      (fun rr => decide (rr.item = trimChars rawName)) = true :=
    List.any_eq_true.mpr ⟨row1, hmem1, by simpa using hitem1⟩
  rw [add_or_update_item_update_eq _ rawName c2 q2 r2 hn hany2]
  have hnames2 : (((add_or_update_item db rawName c1 q1 r1).1.inventory.map
      (upsert_update (trimChars rawName) (category_of c2) q2 r2)).map (·.item)).Nodup := by
    rw [List.map_map]
    have heq : (add_or_update_item db rawName c1 q1 r1).1.inventory.map
        ((·.item) ∘ upsert_update (trimChars rawName) (category_of c2) q2 r2) =
        (add_or_update_item db rawName c1 q1 r1).1.inventory.map (·.item) :=
      List.map_congr_left (fun x _ => upsert_update_item _ _ _ _ x)
    rw [heq]
    exact hnames1
  have humem : upsert_update (trimChars rawName) (category_of c2) q2 r2 row1 ∈
      (add_or_update_item db rawName c1 q1 r1).1.inventory.map
        (upsert_update (trimChars rawName) (category_of c2) q2 r2) :=
    List.mem_map_of_mem _ hmem1
  have hsingle := filter_key_eq_single (·.item)
    ((add_or_update_item db rawName c1 q1 r1).1.inventory.map
      (upsert_update (trimChars rawName) (category_of c2) q2 r2))
    hnames2 _ humem
  have hurow : upsert_update (trimChars rawName) (category_of c2) q2 r2 row1 =
      ⟨row1.id, trimChars rawName, category_of c2, q2, r2⟩ := by
    simp [upsert_update, hitem1]
  rw [hurow] at hsingle
  simpa using hsingle

/-- C4 witness: saving `Widget` twice from an empty database leaves
exactly one `Widget` row carrying the second call's fields and the
original id 1. -/
theorem add_or_update_item_twice_witness :
    ((add_or_update_item (add_or_update_item demo_db0 "Widget".data "Hardware".data 10 3).1
        "Widget".data "Tools".data 7 2).1.inventory.filter
      (fun rr => decide (rr.item = trimChars "Widget".data))) =
      [⟨1, trimChars "Widget".data, category_of "Tools".data, 7, 2⟩] :=
  add_or_update_item_twice demo_db0 "Widget".data "Hardware".data "Tools".data 10 3 7 2
    (by decide) (by decide) ⟨1, "Widget".data, "Hardware".data, 10, 3⟩ (by decide)

theorem inv_view_le_total (a b : InvView) :
    inv_view_le a b = true ∨ inv_view_le b a = true :=
  strLeb_total a.item b.item

theorem inv_view_le_trans (a b c : InvView)
    (hab : inv_view_le a b = true) (hbc : inv_view_le b c = true) :
    inv_view_le a c = true :=
  strLeb_trans a.item b.item c.item hab hbc

/-- C7 (amended): an empty (or whitespace-only) search term is rejected
with no query; for a non-empty term free of the `LIKE` wildcards `%` and
`_`, the search returns exactly the items whose lower-cased name or
category contains the lower-cased term as a substring, ordered by name
ascending.  (Terms containing `%` or `_` reach `LIKE` unescaped, so for
them the substring reading fails — see the counterexample.) -/
theorem search_inventory_spec (db : Db) (rawTerm : Str)
    (hw : ∀ p ∈ lowerStr (trimChars rawTerm), ¬ p = '%' ∧ ¬ p = '_') :
    (trimChars rawTerm = [] → search_inventory db rawTerm = none) ∧
    (¬ trimChars rawTerm = [] →
      (search_inventory db rawTerm).isSome = true ∧
      ((search_inventory db rawTerm).getD []).Pairwise
        (fun a b => strLeb a.item b.item = true) ∧
      (∀ v, v ∈ (search_inventory db rawTerm).getD [] ↔
        ∃ r ∈ db.inventory,
          (containsSub (lowerStr (trimChars rawTerm)) (lowerStr r.item) = true ∨
           containsSub (lowerStr (trimChars rawTerm)) (lowerStr r.category) = true) ∧
          v = inv_view_of r)) := by
  constructor
  · intro h0
    simp [search_inventory, h0, lowerStr]
  · intro htne
    have hterm : ¬ lowerStr (trimChars rawTerm) = [] := by
      simp only [lowerStr, List.map_eq_nil_iff]
      exact htne
    have hsearch : search_inventory db rawTerm =
        some (sortLe inv_view_le ((db.inventory.filter (fun r =>
          likeM ('%' :: (lowerStr (trimChars rawTerm) ++ ['%'])) (lowerStr r.item) ||
          likeM ('%' :: (lowerStr (trimChars rawTerm) ++ ['%'])) (lowerStr r.category))).map
          inv_view_of)) := by
      simp [search_inventory, hterm]
    refine ⟨by rw [hsearch]; rfl, ?_, ?_⟩
    · rw [hsearch]
      have h := sortLe_pairwise inv_view_le inv_view_le_total inv_view_le_trans
        ((db.inventory.filter (fun r =>
          likeM ('%' :: (lowerStr (trimChars rawTerm) ++ ['%'])) (lowerStr r.item) ||
          likeM ('%' :: (lowerStr (trimChars rawTerm) ++ ['%'])) (lowerStr r.category))).map
          inv_view_of)
      exact h.imp (fun hab => by simpa [inv_view_le] using hab)
    · intro v
      rw [hsearch]
      show v ∈ sortLe _ _ ↔ _
      rw [mem_sortLe, List.mem_map]
      constructor
      · rintro ⟨r, hr, rfl⟩
        rw [List.mem_filter] at hr
        refine ⟨r, hr.1, ?_, rfl⟩
        have h2 := hr.2
        rw [likeM_pct_pct _ hw, likeM_pct_pct _ hw, Bool.or_eq_true] at h2
        exact h2
      · rintro ⟨r, hr, hc, rfl⟩
        refine ⟨r, List.mem_filter.mpr ⟨hr, ?_⟩, rfl⟩
        rw [likeM_pct_pct _ hw, likeM_pct_pct _ hw, Bool.or_eq_true]
        exact hc

/-- C7 counterexample: the term `a_c` (whose `_` is a `LIKE` wildcard)
returns the item `abc`, although `a_c` is not a substring of the
lower-cased name or category — search is not substring search for every
term. -/
theorem search_inventory_cex :
    search_inventory search_demo_db "a_c".data =
      some [⟨"abc".data, "General".data, 5, 5⟩] ∧
    containsSub (lowerStr (trimChars "a_c".data)) (lowerStr "abc".data) = false ∧
    containsSub (lowerStr (trimChars "a_c".data)) (lowerStr "General".data) = false := by
  decide

/-- C7 witness: searching the wildcard-free term `b` works as substring
search and returns a name-ordered result. -/
theorem search_inventory_spec_witness :
    ((search_inventory search_demo_db "b".data).getD []).Pairwise
      (fun a b => strLeb a.item b.item = true) :=
  ((search_inventory_spec search_demo_db "b".data (by decide)).2 (by decide)).2.1

theorem view_inventory_eq_nil (db : Db) : view_inventory db = [] ↔ db.inventory = [] := by
  constructor
  · intro h
    have hperm := sortLe_perm inv_view_le (db.inventory.map inv_view_of)
    rw [show sortLe inv_view_le (db.inventory.map inv_view_of) = view_inventory db from rfl,
      h] at hperm
    have hlen := hperm.length_eq
    simp only [List.length_nil, List.length_map] at hlen
    exact List.length_eq_zero.mp hlen.symm
  · intro h
    simp [view_inventory, h, sortLe]

theorem decode_export_row (r : InvView) :
    decode_row (parseLine (serializeLine
      [r.item, r.category, intChars r.qty, intChars r.reorder_level])) = some r := by
  rw [parseLine_serializeLine _ (by simp)]
  simp [decode_row, parseIntChars_intChars]

/-- C6: exporting a non-empty inventory writes the header
`item,category,qty,reorder_level` followed by one comma-separated row per
item in ascending name order, and parsing the written rows back
reproduces exactly the tuples the item listing returns; exporting an
empty inventory writes nothing and reports it. -/
theorem export_inventory_spec (db : Db) :
    (db.inventory = [] → export_inventory db = none) ∧
    (¬ db.inventory = [] →
      (export_inventory db).isSome = true ∧
      ((export_inventory db).getD []).head? =
        some "item,category,qty,reorder_level".data ∧
      ((export_inventory db).getD []).tail.map (fun l => decode_row (parseLine l)) =
        (view_inventory db).map some ∧
      ((export_inventory db).getD []).tail.length = (view_inventory db).length ∧
      (view_inventory db).Pairwise (fun a b => strLeb a.item b.item = true)) := by
  constructor
  · intro h0
    have hv : view_inventory db = [] := (view_inventory_eq_nil db).mpr h0
    simp [export_inventory, hv]
  · intro hne
    have hvne : ¬ view_inventory db = [] := fun h => hne ((view_inventory_eq_nil db).mp h)
    have hexp : export_inventory db = some (serializeLine export_header ::
        (view_inventory db).map (fun r =>
          serializeLine [r.item, r.category, intChars r.qty, intChars r.reorder_level])) := by
      simp [export_inventory, hvne]
    refine ⟨by rw [hexp]; rfl, ?_, ?_, ?_, ?_⟩
    · rw [hexp]
      show some (serializeLine export_header) = _
      rw [show serializeLine export_header = "item,category,qty,reorder_level".data by decide]
    · rw [hexp]
      show ((view_inventory db).map _).map _ = _
      rw [List.map_map]
      exact List.map_congr_left (fun r _ => decode_export_row r)
    · rw [hexp]
      simp
    · have h := sortLe_pairwise inv_view_le inv_view_le_total inv_view_le_trans
        (db.inventory.map inv_view_of)
      exact h.imp (fun hab => by simpa [inv_view_le] using hab)

/-- C6 witness: re-reading the rows exported for the demo database
reproduces exactly the tuples its item listing returns. -/
theorem export_inventory_spec_witness :
    ((export_inventory demo_db1).getD []).tail.map (fun l => decode_row (parseLine l)) =
      (view_inventory demo_db1).map some :=
  ((export_inventory_spec demo_db1).2 (by decide)).2.2.1
